import Mathlib

/-!
Verification development for the name-resolution front-end of the `rune`
compiler: a shallow embedding of `crates/rune/src/path_tree.rs`,
`crates/rune/src/items.rs` and `crates/rune/src/worker.rs`, together with
theorems settling the specification's claims about them.

Conventions of the embedding:
* the arena `Inner { storage, current }` is a pure value; `PathRef`s become
  plain indices (`Nat`) into `storage`;
* machine integers (`TreeUsize = u32`) become `Nat` with the explicit bound
  `2 ^ 32` checked exactly where the source checks `TreeUsize::try_from`;
* fallible operations return `Except`; Rust panics (`expect`, out-of-range
  `deref!`) are modelled by a dedicated error constructor;
* the source's loops that walk `parent` links or `Use` links carry no
  structural decreasing measure, so they are modelled with explicit fuel;
  on every tree the program can build, parent links and `Use` links point
  to strictly smaller indices, so fuel `storage.length + 1` is never
  exhausted there (this is proved where a claim depends on it).
-/

namespace Rune

/-- Visibility tags of the `sec` module, reconstructed from the variants the
sources use (`sec::None`, `sec::Crate`, `sec::Super`, `sec::Public`,
`sec::Private`, `sec::Inherit`). -/
inductive Visibility where
  | None
  | Crate
  | Super
  | Public
  | Private
  | Inherit
deriving DecidableEq, Repr

/-- `PathKind` from `path_tree.rs`. `Use` carries the `PathId` of the alias
target as a `Nat`. -/
inductive PathKind where
  | Package
  | Crate
  | File
  | Mod
  | Use (target : Nat)
  | Struct
  | Enum
  | TypeAlias
  | Impl
  | Fn
  | Const
  | Field
  | Variant
  | Macro
  | Closure
  | Block
deriving DecidableEq, Repr

/-- `PathKind::is_module`: `Mod` and `Crate` count as modules. -/
def PathKind.is_module : PathKind → Bool
  | .Mod => true
  | .Crate => true
  | _ => false

/-- A node of the path tree (`PathPart` in `path_tree.rs`); `PathId`s are
plain `Nat`s. -/
structure PathPart where
  id : Nat
  vis : Visibility
  parent : Option Nat
  name : String
  kind : PathKind
  children : List Nat
deriving DecidableEq, Repr

/-- `PathTreeError` from `path_tree.rs`, with the error message kept as a
plain string. -/
inductive PathTreeError where
  | UnresolvablePath (msg : String)
  | TooManyPaths (limit : Nat)
deriving DecidableEq, Repr

/-- Errors of the embedding: either a `PathTreeError` surfaced by the source,
or a Rust panic (`expect`, `assert`, out-of-range indexing). -/
inductive ModelErr where
  | tree (e : PathTreeError)
  | panicked (msg : String)
deriving DecidableEq, Repr

/-- The shared storage of a `PathTree` (`Inner` in `path_tree.rs`): the node
arena plus the index of the current scope. -/
structure Inner where
  storage : List PathPart
  current : Nat
deriving DecidableEq, Repr

/-- `Inner::empty`: a single `Package` root named `""`. -/
def Inner.emptyTree : Inner :=
  { storage := [{ id := 0, vis := .Public, parent := none, name := "", kind := .Package,
                  children := [] }],
    current := 0 }

/-- `Inner::with_crate_name`: `Package` root with one `Crate` child. -/
def Inner.withCrateName (name : String) : Inner :=
  { storage := [{ id := 0, vis := .Public, parent := none, name := "", kind := .Package,
                  children := [1] },
                { id := 1, vis := .Crate, parent := some 0, name := name, kind := .Crate,
                  children := [] }],
    current := 1 }

/-- Field reads through `deref!`; out-of-range indices panic in the source,
the defaults here are only ever exercised on states no theorem talks about. -/
def Inner.nameOf (t : Inner) (idx : Nat) : String :=
  ((t.storage[idx]?).map PathPart.name).getD ""

def Inner.kindOf (t : Inner) (idx : Nat) : Option PathKind :=
  (t.storage[idx]?).map PathPart.kind

def Inner.visOf (t : Inner) (idx : Nat) : Visibility :=
  ((t.storage[idx]?).map PathPart.vis).getD .None

def Inner.idOf (t : Inner) (idx : Nat) : Nat :=
  ((t.storage[idx]?).map PathPart.id).getD 0

def Inner.childrenOf (t : Inner) (idx : Nat) : List Nat :=
  ((t.storage[idx]?).map PathPart.children).getD []

/-- `PathRef::parent`: the raw parent id, kept only when it is in range
(the source filters with `tree.get(idx).is_some()`). -/
def Inner.parentOf (t : Inner) (idx : Nat) : Option Nat :=
  match t.storage[idx]? with
  | none => none
  | some part =>
    match part.parent with
    | some p => if p < t.storage.length then some p else none
    | none => none

/-- `PathTree::push`: append a fresh node under `parentIdx`.  Fails with
`TooManyPaths` when an id would not fit in `u32` (the `TreeUsize::try_from`
checks).  Note: `push` itself does not record the child in the parent's
child list. -/
def Inner.push (t : Inner) (parentIdx : Nat) (name : String) (kind : PathKind)
    (vis : Visibility) : Except PathTreeError (Nat × Inner) :=
  let idx := t.storage.length
  if idx ≥ 2 ^ 32 then .error (.TooManyPaths (2 ^ 32 - 1))
  else if parentIdx ≥ 2 ^ 32 then .error (.TooManyPaths (2 ^ 32 - 1))
  else .ok (idx,
    { storage := t.storage ++ [{ id := idx, vis := vis, parent := some parentIdx,
                                 name := name, kind := kind, children := [] }],
      current := t.current })

/-- Append `child` to the child list of the node at `idx` (the
`deref_mut!(self).append_child(..)` step). -/
def Inner.appendChildId (t : Inner) (idx child : Nat) : Inner :=
  match t.storage[idx]? with
  | some part =>
    { storage := t.storage.set idx { part with children := part.children ++ [child] },
      current := t.current }
  | none => t

/-- `PathRef::append_child`: push a fresh node under `selfIdx`, then record it
in `selfIdx`'s child list.  The mutable deref of `selfIdx` panics when the
index is out of range of the grown storage. -/
def Inner.appendChild (t : Inner) (selfIdx : Nat) (name : String) (kind : PathKind)
    (vis : Visibility) : Except ModelErr (Nat × Inner) :=
  match t.push selfIdx name kind vis with
  | .error e => .error (.tree e)
  | .ok (childIdx, t1) =>
    if selfIdx < t1.storage.length then .ok (childIdx, t1.appendChildId selfIdx childIdx)
    else .error (.panicked "index out of bounds")

/-- `PathRef::append_sibling`: push a fresh node under this node's raw parent
(defaulting to `0`), with visibility `sec::None`.  It does not touch any
child list. -/
def Inner.appendSibling (t : Inner) (selfIdx : Nat) (name : String) (kind : PathKind) :
    Except ModelErr (Nat × Inner) :=
  match t.storage[selfIdx]? with
  | none => .error (.panicked "index out of bounds")
  | some part =>
    match t.push (part.parent.getD 0) name kind .None with
    | .error e => .error (.tree e)
    | .ok r => .ok r

/-- `PathTree::push_scoped`: append a child under the current node and make it
the new current node; the returned index doubles as the `Guard`'s
`path_ref.idx`. -/
def Inner.pushScoped (t : Inner) (name : String) (kind : PathKind) (vis : Visibility) :
    Except ModelErr (Nat × Inner) :=
  match t.appendChild t.current name kind vis with
  | .error e => .error e
  | .ok (idx, t1) => .ok (idx, { storage := t1.storage, current := idx })

/-- `PathTree::pop`: move `current` to its parent, returning the index that
was popped; `none` when the current node has no parent. -/
def Inner.pop (t : Inner) : Option (Nat × Inner) :=
  let idx := t.current
  match t.storage[idx]? with
  | none => none
  | some part =>
    match part.parent with
    | some p => some (idx, { storage := t.storage, current := p })
    | none => none

def isModuleKind : Option PathKind → Bool
  | some .Mod => true
  | some .Crate => true
  | _ => false

/-- `PathRef::qualified_path`, accumulator form: collect names walking parent
links.  Fuel-modelled; on trees built by `push`, parent links strictly
decrease, so fuel `storage.length + 1` never runs out. -/
def Inner.qualifiedPathAux (t : Inner) : Nat → Nat → List String → List String
  | 0, _, parts => parts
  | fuel + 1, idx, parts =>
    match t.parentOf idx with
    | none => parts
    | some p => t.qualifiedPathAux fuel p (parts ++ [t.nameOf p])

def Inner.qualifiedPath (t : Inner) (idx : Nat) : List String :=
  (t.qualifiedPathAux (t.storage.length + 1) idx [t.nameOf idx]).reverse

/-- `PathRef::parent_mod`: first module strictly above `idx` (fuel-modelled). -/
def Inner.parentModAux (t : Inner) : Nat → Nat → Option Nat
  | 0, _ => none
  | fuel + 1, idx =>
    match t.parentOf idx with
    | none => none
    | some p => if isModuleKind (t.kindOf p) then some p else t.parentModAux fuel p

def Inner.parentModD (t : Inner) (idx : Nat) : Option Nat :=
  t.parentModAux (t.storage.length + 1) idx

/-- `PathRef::self_mod`: first module at or above `idx` (fuel-modelled). -/
def Inner.selfModAux (t : Inner) : Nat → Nat → Option Nat
  | 0, _ => none
  | fuel + 1, idx =>
    if isModuleKind (t.kindOf idx) then some idx
    else
      match t.parentOf idx with
      | none => none
      | some p => t.selfModAux fuel p

def Inner.selfModD (t : Inner) (idx : Nat) : Option Nat :=
  t.selfModAux (t.storage.length + 1) idx

/-- `PathRef::resolve`: follow `Use` links until a non-alias node, treating
`Use(0)` as terminal.  The source loop has no cycle detection, so the model
takes fuel and returns `none` while the loop is still running (or on the
panic of an out-of-range deref). -/
def Inner.resolveFuel (t : Inner) : Nat → Nat → Option Nat
  | 0, _ => none
  | fuel + 1, idx =>
    match t.kindOf idx with
    | some (.Use target) => if target = 0 then some idx else t.resolveFuel fuel target
    | some _ => some idx
    | none => none

/-- `resolve` as used by `is_visible_to`: with fuel `storage.length + 1`,
which suffices whenever `Use` links strictly decrease (true of every tree
the program builds; proved below). -/
def Inner.resolveD (t : Inner) (idx : Nat) : Nat :=
  (t.resolveFuel (t.storage.length + 1) idx).getD idx

/-- First child of the list `cs` whose name equals `q` (the left-to-right
scan of the `'breadth` loop in `PathTree::find`). -/
def Inner.childNamed (t : Inner) (cs : List Nat) (q : String) : Option Nat :=
  cs.find? (fun c => t.nameOf c == q)

def qualToString (qs : List String) : String := String.intercalate "::" qs

/-- The loop of `PathTree::find`.  `disp` is the `Display` rendering of the
original qualified path, used in error messages.  Faithful to the source:

* a matching child advances the walk and records it in `last`;
* when no child matches, `last` is cleared only if at least one child was
  examined (the `last = None` assignment inside the `'breadth` loop);
* after the walk, a remaining component is reported (note: this names the
  component *after* the one that failed to match);
* otherwise the result is `last`, or a `could not find path` error. -/
def Inner.findAux (t : Inner) (disp : String) :
    List String → Nat → Option Nat → Except PathTreeError Nat
  | [], _, last =>
    match last with
    | some l => .ok l
    | none => .error (.UnresolvablePath ("could not find path: " ++ disp))
  | c :: rest, current, last =>
    match t.childNamed (t.childrenOf current) c with
    | some child => t.findAux disp rest child (some child)
    | none =>
      match rest with
      | p :: _ =>
        .error (.UnresolvablePath ("path resolution failed for " ++ disp ++ " at " ++ p))
      | [] =>
        match (if (t.childrenOf current).isEmpty then last else none) with
        | some l => .ok l
        | none => .error (.UnresolvablePath ("could not find path: " ++ disp))

/-- `PathTree::find`: filter out empty components, then walk children
left-to-right from the root node `0`. -/
def Inner.find (t : Inner) (qualpath : List String) : Except PathTreeError Nat :=
  t.findAux (qualToString qualpath) (qualpath.filter (fun s => !s.isEmpty)) 0 none

/-- `QualifiedPath::is_ancestor_of`, exactly as written in `worker.rs`: the
length test conjoined with equality of the *whole* slices. -/
def isAncestorOf (a b : List String) : Bool :=
  decide (a.length < b.length) && (a == b)

/-- `QualifiedPath::is_super_of` from `worker.rs`. -/
def isSuperOf (a b : List String) : Bool :=
  decide (a.length = b.length - 1) && (a == b)

/-- `QualifiedPath::common_ancestor`: longest shared component run of the
zipped paths. -/
def commonAncestor (a b : List String) : List String :=
  ((a.zip b).takeWhile (fun p => p.1 == p.2)).map Prod.fst

/-- `PathTree::is_visible_to` from `path_tree.rs`: find and resolve target
and source, then dispatch on the target's visibility tag. -/
def Inner.isVisibleTo (t : Inner) (source target : List String) :
    Except PathTreeError Bool :=
  match t.find target with
  | .error e => .error e
  | .ok tIdx =>
    match t.find source with
    | .error e => .error e
    | .ok sIdx =>
      let targetPath := t.resolveD tIdx
      let sourcePath := t.resolveD sIdx
      match t.visOf targetPath with
      | .None => .ok false
      | .Crate => .ok true
      | .Super =>
        match t.parentModD targetPath with
        | none =>
          .error (.UnresolvablePath ("could not resolve `super` of " ++ qualToString target))
        | some sup =>
          let supQ := t.qualifiedPath sup
          let anc := commonAncestor source target
          .ok ((supQ == anc) || isAncestorOf supQ anc)
      | .Public => .ok true
      | .Private =>
        match t.selfModD sourcePath, t.selfModD targetPath with
        | some s, some tgt => .ok (s == tgt)
        | _, _ => .ok false
      | .Inherit => .ok false

/-- Total wrapper over `appendChild` for building concrete example trees;
on the (unreachable, for small trees) error path it returns the tree
unchanged. -/
def appendChildD (t : Inner) (idx : Nat) (name : String) (kind : PathKind)
    (vis : Visibility) : Inner :=
  match t.appendChild idx name kind vis with
  | .ok r => r.2
  | .error _ => t

/-- Total wrapper over `appendSibling` for building concrete example trees. -/
def appendSiblingD (t : Inner) (idx : Nat) (name : String) (kind : PathKind) : Inner :=
  match t.appendSibling idx name kind with
  | .ok r => r.2
  | .error _ => t

end Rune

namespace Rune

/-- Tree for the C1 counterexample: package root `""` with a single childless
module `a`. -/
def c1Tree : Inner := appendChildD Inner.emptyTree 0 "a" .Mod .Public

/-- Tree for the super-visibility scenario of C2, built with the crate root
`mycrate`: modules `a` (index 2), `a::b` (3), a `fn item` declared
super-visible inside `a::b` (4), module `a::c` (5) and unrelated module `z`
(6). -/
def c2Tree : Inner :=
  appendChildD
    (appendChildD
      (appendChildD
        (appendChildD
          (appendChildD (Inner.withCrateName "mycrate") 1 "a" .Mod .Public)
          2 "b" .Mod .Public)
        3 "item" .Fn .Super)
      2 "c" .Mod .Public)
    1 "z" .Mod .Public

/-- Tree for the C5 counterexample: two alias nodes forming a cyclic `Use`
chain (`u1` at index 1 points at index 2, `u2` at index 2 points back at
index 1). -/
def c5Tree : Inner :=
  appendChildD (appendChildD Inner.emptyTree 0 "u1" (.Use 2) .Public) 0 "u2" (.Use 1) .Public

end Rune

namespace Rune

/-- Presence of a qualified path in the tree, in the deterministic form the
walk of `find` uses: each component is matched by the first child of that
name (so sibling names along the path are effectively unique, matching the
claim's "unique node" reading). -/
inductive Chain (t : Inner) : Nat → List String → Nat → Prop where
  | nil (idx : Nat) : Chain t idx [] idx
  | cons (idx : Nat) (c : String) (cs : List String) (child n : Nat)
      (hc : t.childNamed (t.childrenOf idx) c = some child)
      (h : Chain t child cs n) : Chain t idx (c :: cs) n

/-- The walk of `findAux` follows a present chain and continues from its end
with `last` set to the reached node. -/
theorem chain_findAux (t : Inner) (disp : String) (cs : List String) :
    ∀ (idx n : Nat), Chain t idx cs n → cs ≠ [] →
      ∀ (suffix : List String) (last : Option Nat),
        t.findAux disp (cs ++ suffix) idx last = t.findAux disp suffix n (some n) := by
  induction cs with
  | nil => intro idx n _ hne; exact absurd rfl hne
  | cons c cs ih =>
    intro idx n h _ suffix last
    cases h with
    | cons _ _ _ child _ hc hrest =>
      have hstep :
          t.findAux disp ((c :: cs) ++ suffix) idx last =
            t.findAux disp (cs ++ suffix) child (some child) := by
        simp [Inner.findAux, hc]
      rw [hstep]
      cases cs with
      | nil =>
        cases hrest with
        | nil => simp
      | cons c2 cs2 => exact ih child n hrest (by simp) suffix (some child)

theorem filter_nonempty_eq (cs : List String) (h : ∀ c ∈ cs, (!c.isEmpty) = true) :
    cs.filter (fun s => !s.isEmpty) = cs :=
  List.filter_eq_self.mpr h

end Rune

namespace Rune

/-- Second demo tree for C1: `"" → a → b` with `b` childless. -/
def c1WitTree : Inner :=
  appendChildD (appendChildD Inner.emptyTree 0 "a" .Mod .Public) 1 "b" .Mod .Public

/-- Claim C1 (counterexample): on the tree `"" → a` with `a` childless, the
qualified path `a::x` is absent, yet `find` returns the node `a` (index 1)
instead of failing with `UnresolvablePath`. -/
theorem find_absent_path_succeeds_cex :
    c1Tree.find ["a", "x"] = .ok 1 ∧ c1Tree.nameOf 1 = "a" ∧
      c1Tree.childrenOf 1 = [] ∧ c1Tree.storage.length = 2 :=
  ⟨rfl, rfl, rfl, rfl⟩

/-- Claim C1 (amended): for every qualified path present in the tree (each
component matched by the first child of that name), `find` returns the
reached node.  On an absent path, `find` does not always fail: when the walk
stalls at a childless node and the missing component is the last one, it
returns the deepest matched node; when further components remain after the
first missing one, it fails with `UnresolvablePath`, but the message names
the component *after* the first missing one, not the missing one itself. -/
theorem find_amended_behavior (t : Inner) (cs : List String) (n : Nat) (x y : String)
    (rest : List String)
    (hcs : ∀ c ∈ cs, (!c.isEmpty) = true) (hne : cs ≠ []) (hchain : Chain t 0 cs n) :
    t.find cs = .ok n
    ∧ ((!x.isEmpty) = true → t.childrenOf n = [] → t.find (cs ++ [x]) = .ok n)
    ∧ ((!x.isEmpty) = true → (!y.isEmpty) = true → (∀ c ∈ rest, (!c.isEmpty) = true) →
        t.childNamed (t.childrenOf n) x = none →
        t.find (cs ++ x :: y :: rest) =
          .error (.UnresolvablePath
            ("path resolution failed for " ++ qualToString (cs ++ x :: y :: rest)
              ++ " at " ++ y))) := by
  refine ⟨?_, ?_, ?_⟩
  · rw [Inner.find, filter_nonempty_eq cs hcs]
    have h := chain_findAux t (qualToString cs) cs 0 n hchain hne [] none
    rw [List.append_nil] at h
    rw [h]
    rfl
  · intro hx hchild
    rw [Inner.find]
    have hall : ∀ c ∈ cs ++ [x], (!c.isEmpty) = true := by
      intro c hc
      rcases List.mem_append.mp hc with h | h
      · exact hcs c h
      · simp at h; subst h; exact hx
    rw [filter_nonempty_eq _ hall]
    rw [chain_findAux t (qualToString (cs ++ [x])) cs 0 n hchain hne [x] none]
    simp [Inner.findAux, Inner.childNamed, hchild]
  · intro hx hy hrest hmiss
    rw [Inner.find]
    have hall : ∀ c ∈ cs ++ x :: y :: rest, (!c.isEmpty) = true := by
      intro c hc
      rcases List.mem_append.mp hc with h | h
      · exact hcs c h
      · rcases h with _ | ⟨_, h⟩
        · exact hx
        · rcases h with _ | ⟨_, h⟩
          · exact hy
          · exact hrest c h
    rw [filter_nonempty_eq _ hall]
    rw [chain_findAux t (qualToString (cs ++ x :: y :: rest)) cs 0 n hchain hne
      (x :: y :: rest) none]
    simp [Inner.findAux, hmiss]

/-- Claim C1 (witness): concrete instance of the amended behavior on
`c1WitTree`. -/
theorem find_amended_behavior_witness :
    c1WitTree.find ["a", "b"] = .ok 2
    ∧ c1WitTree.find ["a", "b", "x"] = .ok 2
    ∧ c1WitTree.find ["a", "b", "x", "y"] =
        .error (.UnresolvablePath
          ("path resolution failed for " ++ qualToString (["a", "b"] ++ "x" :: "y" :: [])
            ++ " at " ++ "y")) := by
  have hchain : Chain c1WitTree 0 ["a", "b"] 2 :=
    Chain.cons 0 "a" ["b"] 1 2 rfl (Chain.cons 1 "b" [] 2 2 rfl (Chain.nil 2))
  have h := find_amended_behavior c1WitTree ["a", "b"] 2 "x" "y" []
    (by decide) (by decide) hchain
  exact ⟨h.1, h.2.1 rfl rfl, h.2.2 rfl rfl (by simp) rfl⟩

/-- Claim C2 (failing input): the `fn item` at index 4 of `c2Tree` is declared
super-visible inside `a::b`; the claim (and the spec's scenario) say it is
visible from `a` and from `a::c`, but `is_visible_to` returns `false` for
both (it compares the item's *own* nearest enclosing module `a::b`, not that
module's parent `a`, against the common ancestor).  It is visible from
inside `a::b` itself, i.e. `Super` degenerates to private-to-the-defining-
module. -/
theorem super_visibility_failing_input :
    c2Tree.visOf 4 = .Super
    ∧ c2Tree.isVisibleTo ["", "mycrate", "a"] ["", "mycrate", "a", "b", "item"] = .ok false
    ∧ c2Tree.isVisibleTo ["", "mycrate", "a", "c"] ["", "mycrate", "a", "b", "item"]
        = .ok false
    ∧ c2Tree.isVisibleTo ["", "mycrate", "z"] ["", "mycrate", "a", "b", "item"] = .ok false
    ∧ c2Tree.isVisibleTo ["", "mycrate", "a", "b"] ["", "mycrate", "a", "b", "item"]
        = .ok true :=
  ⟨rfl, rfl, rfl, rfl, rfl⟩

/-- Claim C4 (failing input): `["a"]` is a strict prefix of `["a", "b"]`
(the claim says `is_ancestor_of` must return `true` here), but
`is_ancestor_of` compares the *whole* component lists for equality under a
strict length test, so it returns `false`. -/
theorem is_ancestor_of_failing_input :
    isAncestorOf ["a"] ["a", "b"] = false
    ∧ List.take 1 ["a", "b"] = ["a"] ∧ 1 < 2 := by
  refine ⟨?_, ?_, ?_⟩ <;> decide

end Rune

namespace Rune

/-- Every `Use` link in the storage (scanned from offset `i`) points strictly
below the node holding it.  Trees built by the program have this shape: an
alias's target is always a node that already existed when the alias was
pushed. -/
def useDecB : List PathPart → Nat → Bool
  | [], _ => true
  | p :: rest, i =>
    (match p.kind with
     | .Use target => decide (target < i)
     | _ => true) && useDecB rest (i + 1)

theorem useDecB_spec (l : List PathPart) :
    ∀ (i j : Nat) (part : PathPart) (target : Nat),
      useDecB l i = true → l[j]? = some part → part.kind = .Use target → target < i + j := by
  induction l with
  | nil => intro i j part target _ hj; simp at hj
  | cons p rest ih =>
    intro i j part target h hj hk
    rw [useDecB, Bool.and_eq_true] at h
    cases j with
    | zero =>
      simp at hj
      subst hj
      rw [hk] at h
      simpa using h.1
    | succ j =>
      simp only [List.getElem?_cons_succ] at hj
      have := ih (i + 1) j part target h.2 hj hk
      omega

theorem resolveFuel_mono (t : Inner) :
    ∀ (f f' idx r : Nat), f ≤ f' → t.resolveFuel f idx = some r →
      t.resolveFuel f' idx = some r := by
  intro f
  induction f with
  | zero => intro f' idx r _ h; simp [Inner.resolveFuel] at h
  | succ f ih =>
    intro f' idx r hle h
    cases f' with
    | zero => omega
    | succ f2 =>
      rw [Inner.resolveFuel] at h ⊢
      cases hk : t.kindOf idx with
      | none => rw [hk] at h; exact absurd h (by simp)
      | some k =>
        rw [hk] at h
        cases k with
        | Use target =>
          by_cases h0 : target = 0
          · simpa [h0] using (by simpa [h0] using h : some idx = some r)
          · simp only [h0, if_false] at h ⊢
            exact ih f2 target r (by omega) h
        | Package => simpa using h
        | Crate => simpa using h
        | File => simpa using h
        | Mod => simpa using h
        | Struct => simpa using h
        | Enum => simpa using h
        | TypeAlias => simpa using h
        | Impl => simpa using h
        | Fn => simpa using h
        | Const => simpa using h
        | Field => simpa using h
        | Variant => simpa using h
        | Macro => simpa using h
        | Closure => simpa using h
        | Block => simpa using h

/-- On the cyclic alias chain `c5Tree` (`1 → 2 → 1 → ...`), `resolve` never
reaches a non-alias node, for any amount of fuel: the source loop runs
forever rather than detecting the repetition. -/
theorem c5Tree_resolve_diverges :
    ∀ fuel, c5Tree.resolveFuel fuel 1 = none ∧ c5Tree.resolveFuel fuel 2 = none := by
  intro fuel
  induction fuel with
  | zero => exact ⟨rfl, rfl⟩
  | succ f ih =>
    constructor
    · rw [Inner.resolveFuel]
      have hk : c5Tree.kindOf 1 = some (.Use 2) := rfl
      rw [hk]
      simpa using ih.2
    · rw [Inner.resolveFuel]
      have hk : c5Tree.kindOf 2 = some (.Use 1) := rfl
      rw [hk]
      simpa using ih.1

/-- Claim C5 (counterexample): on the concrete cyclic alias chain, after 100
steps `resolve` is still chasing `Use` links — it neither reaches a
non-alias node nor fails; the source has no repeated-id detection at all. -/
theorem resolve_cycle_not_detected_cex :
    c5Tree.resolveFuel 100 1 = none
    ∧ c5Tree.kindOf 1 = some (.Use 2) ∧ c5Tree.kindOf 2 = some (.Use 1) :=
  ⟨rfl, rfl, rfl⟩

/-- Claim C5 (amended): `resolve` follows `Use` links, treating `Use(0)` as a
terminal placeholder, and has no cycle detection.  It terminates on every
tree whose `Use` links point strictly downward — which every tree the
program builds satisfies — with fuel bounded by the starting index; on a
cyclic chain it loops forever instead of failing. -/
theorem resolve_terminates_amended :
    (∀ (t : Inner) (idx : Nat), useDecB t.storage 0 = true → idx < t.storage.length →
       ∃ r, t.resolveFuel (idx + 1) idx = some r)
    ∧ (∀ fuel, c5Tree.resolveFuel fuel 1 = none) := by
  constructor
  · intro t idx
    induction idx using Nat.strong_induction_on with
    | _ idx ih =>
      intro hdec hlt
      obtain ⟨part, hpart⟩ : ∃ part, t.storage[idx]? = some part :=
        ⟨_, List.getElem?_eq_getElem hlt⟩
      rw [Inner.resolveFuel, Inner.kindOf, hpart]
      simp only [Option.map_some']
      cases hk : part.kind with
      | Use target =>
        by_cases h0 : target = 0
        · exact ⟨idx, by simp [h0]⟩
        · have htlt : target < idx := by
            have := useDecB_spec t.storage 0 idx part target hdec hpart hk
            omega
          obtain ⟨r, hr⟩ := ih target htlt hdec (by omega)
          refine ⟨r, ?_⟩
          show (if target = 0 then some idx else t.resolveFuel idx target) = some r
          rw [if_neg h0]
          exact resolveFuel_mono t (target + 1) idx target r (by omega) hr
      | Package => exact ⟨idx, rfl⟩
      | Crate => exact ⟨idx, rfl⟩
      | File => exact ⟨idx, rfl⟩
      | Mod => exact ⟨idx, rfl⟩
      | Struct => exact ⟨idx, rfl⟩
      | Enum => exact ⟨idx, rfl⟩
      | TypeAlias => exact ⟨idx, rfl⟩
      | Impl => exact ⟨idx, rfl⟩
      | Fn => exact ⟨idx, rfl⟩
      | Const => exact ⟨idx, rfl⟩
      | Field => exact ⟨idx, rfl⟩
      | Variant => exact ⟨idx, rfl⟩
      | Macro => exact ⟨idx, rfl⟩
      | Closure => exact ⟨idx, rfl⟩
      | Block => exact ⟨idx, rfl⟩
  · exact fun fuel => (c5Tree_resolve_diverges fuel).1

/-- A downward-pointing alias tree for the C5 witness: `f` at index 1, and an
alias `u` at index 2 pointing at 1. -/
def c5GoodTree : Inner :=
  appendChildD (appendChildD Inner.emptyTree 0 "f" .Fn .Public) 0 "u" (.Use 1) .Public

/-- Claim C5 (witness): the termination half applied at the concrete
downward-pointing tree. -/
theorem resolve_terminates_amended_witness :
    useDecB c5GoodTree.storage 0 = true ∧ 2 < c5GoodTree.storage.length
    ∧ (c5GoodTree.resolveFuel 3 2).isSome = true := by
  refine ⟨by decide, by decide, ?_⟩
  obtain ⟨r, hr⟩ := resolve_terminates_amended.1 c5GoodTree 2 (by decide) (by decide)
  simp [hr]

end Rune

namespace Rune

/-- A strictly nested (well-bracketed) program of `push_scoped` acquisitions
and guard releases: `bracket name kind vis inner rest` is
"push; run `inner`; drop the guard; run `rest`". -/
inductive BalOps where
  | nil : BalOps
  | bracket (name : String) (kind : PathKind) (vis : Visibility)
      (inner rest : BalOps) : BalOps

/-- Run a well-bracketed program against the tree.  A guard release is
`Guard::drop`: `pop`, then the assertion `dropped.idx == path_ref.idx`;
assertion failure and pop-of-root are the source's panics. -/
def execBal (t : Inner) : BalOps → Except ModelErr Inner
  | .nil => .ok t
  | .bracket name kind vis inner rest =>
    match t.pushScoped name kind vis with
    | .error e => .error e
    | .ok (g, t1) =>
      match execBal t1 inner with
      | .error e => .error e
      | .ok t2 =>
        match t2.pop with
        | none => .error (.panicked "path tree was corrupted")
        | some (dropped, t3) =>
          if dropped = g then execBal t3 rest
          else .error (.panicked "path tree was corrupted")

/-- `t'` extends `t`: every stored node keeps its parent pointer. -/
abbrev StorageExtends (t t' : Inner) : Prop :=
  ∀ (i : Nat) (part : PathPart), t.storage[i]? = some part →
    ∃ part' : PathPart, t'.storage[i]? = some part' ∧ part'.parent = part.parent

theorem storageExtends_refl (t : Inner) : StorageExtends t t :=
  fun _ part h => ⟨part, h, rfl⟩

theorem storageExtends_trans {t1 t2 t3 : Inner}
    (h12 : StorageExtends t1 t2) (h23 : StorageExtends t2 t3) :
    StorageExtends t1 t3 := by
  intro i part h
  obtain ⟨p2, h2, hp2⟩ := h12 i part h
  obtain ⟨p3, h3, hp3⟩ := h23 i p2 h2
  exact ⟨p3, h3, hp3.trans hp2⟩

theorem push_ok_shape {t : Inner} {parentIdx : Nat} {name : String} {kind : PathKind}
    {vis : Visibility} {g : Nat} {t1 : Inner}
    (h : t.push parentIdx name kind vis = .ok (g, t1)) :
    g = t.storage.length
    ∧ t1.storage = t.storage ++
        [{ id := g, vis := vis, parent := some parentIdx, name := name, kind := kind,
           children := [] }]
    ∧ t1.current = t.current := by
  rw [Inner.push] at h
  split at h
  · exact Except.noConfusion h
  · split at h
    · exact Except.noConfusion h
    · injection h with hpair
      cases hpair
      exact ⟨rfl, rfl, rfl⟩

theorem appendChildId_parent (t : Inner) (idx child i : Nat) (part : PathPart)
    (h : t.storage[i]? = some part) :
    ∃ part', (t.appendChildId idx child).storage[i]? = some part'
      ∧ part'.parent = part.parent ∧ part'.name = part.name
      ∧ part'.kind = part.kind ∧ part'.vis = part.vis ∧ part'.id = part.id := by
  rw [Inner.appendChildId]
  cases hidx : t.storage[idx]? with
  | none => exact ⟨part, h, rfl, rfl, rfl, rfl, rfl⟩
  | some p0 =>
    by_cases hie : i = idx
    · subst hie
      rw [hidx] at h
      cases h
      have hlt : i < t.storage.length := by
        by_contra hge
        rw [List.getElem?_eq_none (by omega)] at hidx
        cases hidx
      exact ⟨{ part with children := part.children ++ [child] },
        by simpa using List.getElem?_set_eq_of_lt _ hlt, rfl, rfl, rfl, rfl, rfl⟩
    · refine ⟨part, ?_, rfl, rfl, rfl, rfl, rfl⟩
      have hne : idx ≠ i := fun he => hie he.symm
      simpa [List.getElem?_set_ne hne] using h

/-- Shape of a successful `push_scoped`: the guard index is the old storage
length, the new node's parent is the old current node, and all previously
stored nodes keep their parent pointers. -/
theorem pushScoped_ok_shape {t : Inner} {name : String} {kind : PathKind}
    {vis : Visibility} {g : Nat} {t1 : Inner}
    (h : t.pushScoped name kind vis = .ok (g, t1)) :
    g = t.storage.length
    ∧ t1.current = g
    ∧ (∃ part, t1.storage[g]? = some part ∧ part.parent = some t.current)
    ∧ StorageExtends t t1 := by
  rw [Inner.pushScoped] at h
  cases hac : t.appendChild t.current name kind vis with
  | error e => rw [hac] at h; cases h
  | ok r =>
    rw [hac] at h
    cases h
    obtain ⟨gi, ti⟩ := r
    rw [Inner.appendChild] at hac
    cases hp : t.push t.current name kind vis with
    | error e => rw [hp] at hac; cases hac
    | ok rp =>
      rw [hp] at hac
      obtain ⟨gp, tp⟩ := rp
      obtain ⟨hg, hst, hcur⟩ := push_ok_shape hp
      by_cases hsel : t.current < tp.storage.length
      · simp only [hsel, if_true, Except.ok.injEq, Prod.mk.injEq] at hac
        obtain ⟨hgi, hti⟩ := hac
        subst hgi
        subst hti
        refine ⟨hg, rfl, ?_, ?_⟩
        · have hbase : tp.storage[gp]? =
              some { id := gp, vis := vis, parent := some t.current, name := name,
                     kind := kind, children := [] } := by
            rw [hst, hg]
            simp
          obtain ⟨part', hpart', hpar, _, _, _, _⟩ :=
            appendChildId_parent tp t.current gp gp _ hbase
          exact ⟨part', by simpa using hpart', by simpa using hpar⟩
        · intro i part hi
          have hbase : tp.storage[i]? = some part := by
            rw [hst]
            rw [List.getElem?_append_left]
            · exact hi
            · by_contra hge
              rw [List.getElem?_eq_none (by omega)] at hi
              cases hi
          obtain ⟨part', hpart', hpar, _, _, _, _⟩ :=
            appendChildId_parent tp t.current gp i part hbase
          exact ⟨part', by simpa using hpart', hpar⟩
      · simp [hsel] at hac

/-- Core of the round-trip law: a successful run of a well-bracketed program
leaves the current pointer where it started, and never moves any stored
node's parent pointer. -/
theorem execBal_spec (ops : BalOps) :
    ∀ (t t' : Inner), execBal t ops = .ok t' →
      t'.current = t.current ∧ StorageExtends t t' := by
  induction ops with
  | nil =>
    intro t t' h
    rw [execBal] at h
    cases h
    exact ⟨rfl, storageExtends_refl t⟩
  | bracket name kind vis inner rest ihInner ihRest =>
    intro t t' h
    rw [execBal] at h
    split at h
    · exact Except.noConfusion h
    · rename_i g t1 hps
      split at h
      · exact Except.noConfusion h
      · rename_i t2 hin
        obtain ⟨hg, hcur1, ⟨gPart, hgPart, hgParent⟩, hext1⟩ := pushScoped_ok_shape hps
        obtain ⟨hcur2, hext2⟩ := ihInner t1 t2 hin
        obtain ⟨gPart2, hgPart2, hgParent2⟩ := hext2 g gPart hgPart
        have hpop2 : t2.pop = some (g, { storage := t2.storage, current := t.current }) := by
          have hgp : gPart2.parent = some t.current := hgParent2.trans hgParent
          rw [Inner.pop]
          rw [hcur2, hcur1]
          simp [hgPart2, hgp]
        split at h
        · rename_i hpop
          rw [hpop2] at hpop
          exact Option.noConfusion hpop
        · rename_i dropped t3 hpop
          rw [hpop2] at hpop
          injection hpop with hpair
          cases hpair
          split at h
          · obtain ⟨hcur3, hext3⟩ := ihRest _ t' h
            refine ⟨by rw [hcur3], ?_⟩
            exact storageExtends_trans (storageExtends_trans hext1 hext2) hext3
          · exact Except.noConfusion h

/-- Claim C6: any strictly nested sequence of `push_scoped` acquisitions and
guard releases that runs without error restores the tree's original
"current" pointer (each inner bracket restores the pointer at its matching
release, which is what the induction of `execBal_spec` steps through). -/
theorem push_release_round_trip (t : Inner) (ops : BalOps) :
    ∀ t', execBal t ops = .ok t' → t'.current = t.current :=
  fun t' h => (execBal_spec ops t t' h).1

/-- Concrete program for the C6 witness: two nested brackets followed by a
sibling bracket. -/
def c6Ops : BalOps :=
  .bracket "a" .Mod .Public
    (.bracket "f" .Fn .Private .nil .nil)
    (.bracket "z" .Mod .Public .nil .nil)

/-- The tree produced by running `c6Ops` on the crate tree. -/
def c6Result : Inner :=
  match execBal (Inner.withCrateName "mycrate") c6Ops with
  | .ok t => t
  | .error _ => Inner.emptyTree

/-- Claim C6 (witness): the round-trip law applied to the concrete program. -/
theorem push_release_round_trip_witness :
    execBal (Inner.withCrateName "mycrate") c6Ops = .ok c6Result
    ∧ c6Result.current = (Inner.withCrateName "mycrate").current :=
  ⟨rfl, push_release_round_trip (Inner.withCrateName "mycrate") c6Ops c6Result rfl⟩

end Rune

namespace Rune

/-- `runestick::Component` as used by `items.rs` and `worker.rs`: a named
component or a numbered anonymous component (`Str` stands for
`Component::String`). -/
inductive Component where
  | Str (s : String)
  | Block (n : Nat)
  | Closure (n : Nat)
  | AsyncBlock (n : Nat)
  | Macro (n : Nat)
deriving DecidableEq, Repr

/-- Whether a component is a macro-call component (`Component::Macro`). -/
def Component.isMacroComponent : Component → Bool
  | .Macro _ => true
  | _ => false

/-- `MacroKind` from `worker.rs`. -/
inductive MacroKind where
  | Expr
  | Item
deriving DecidableEq, Repr

/-- Outcome of the `Task::ExpandMacro` arm of `Worker::run` for the purposes
of claim C7. -/
inductive ExpandOutcome where
  | internalError
  | evalError
  | enqueued (itemsPath : List Component)
deriving DecidableEq, Repr

/-- The `Task::ExpandMacro` arm of `Worker::run`, projected onto the items
path: for an item macro, pop the trailing component and require it to be a
`Macro` component (otherwise push an internal error and enqueue nothing);
then evaluate the macro (`evalOk` abstracts the external `eval_macro`
capability) and, on success, enqueue the `Index` task over the expansion
with the popped items path. -/
def expandMacroDispatch (kind : MacroKind) (path : List Component) (evalOk : Bool) :
    ExpandOutcome :=
  match kind with
  | .Item =>
    match path.getLast? with
    | some (Component.Macro _) =>
      if evalOk then .enqueued path.dropLast else .evalError
    | _ => .internalError
  | .Expr => if evalOk then .enqueued path else .evalError

/-- Claim C7: when an `ExpandMacro` task of item kind is dispatched and the
trailing component is the macro's anonymous `Macro` component (the unique
macro component of the path), that component is popped before the `Index`
task over the expansion is enqueued, so the enqueued items path — the path
under which the expansion is indexed — contains no macro-call component; and
when the trailing component is not a `Macro` component, an internal error is
reported and nothing is enqueued. -/
theorem expand_macro_pops_anonymous_slot (path : List Component) (i : Nat)
    (hlast : path.getLast? = some (Component.Macro i))
    (hone : path.countP (fun c => c.isMacroComponent) = 1) :
    expandMacroDispatch .Item path true = .enqueued path.dropLast
    ∧ (∀ c ∈ path.dropLast, c.isMacroComponent = false)
    ∧ (∀ path2 : List Component, (∀ j, path2.getLast? ≠ some (Component.Macro j)) →
        expandMacroDispatch .Item path2 true = .internalError) := by
  refine ⟨?_, ?_, ?_⟩
  · rw [expandMacroDispatch, hlast]
    rfl
  · intro c hc
    have hne : path ≠ [] := by
      intro he
      rw [he] at hlast
      cases hlast
    have hdecomp : path.dropLast ++ [path.getLast hne] = path := List.dropLast_concat_getLast hne
    have hlastval : path.getLast hne = Component.Macro i := by
      have := List.getLast?_eq_getLast path hne
      rw [hlast] at this
      exact (Option.some.injEq _ _).mp this.symm
    have hcount : path.countP (fun c => c.isMacroComponent) =
        path.dropLast.countP (fun c => c.isMacroComponent) + 1 := by
      conv_lhs => rw [← hdecomp]
      rw [List.countP_append, hlastval]
      simp [Component.isMacroComponent]
    have hzero : path.dropLast.countP (fun c => c.isMacroComponent) = 0 := by omega
    have := List.countP_eq_zero.mp hzero c hc
    simpa using this
  · intro path2 hpath2
    rw [expandMacroDispatch]
    cases hl : path2.getLast? with
    | none => rfl
    | some c =>
      cases c with
      | Str s => rfl
      | Block n => rfl
      | Closure n => rfl
      | AsyncBlock n => rfl
      | Macro n => exact absurd hl (hpath2 n)

/-- Claim C7 (witness): the concrete items path `mymod::0` with a trailing
anonymous macro slot. -/
theorem expand_macro_pops_anonymous_slot_witness :
    expandMacroDispatch .Item [Component.Str "mymod", Component.Macro 0] true
      = .enqueued [Component.Str "mymod"]
    ∧ expandMacroDispatch .Item [Component.Str "mymod", Component.Str "f"] true
      = .internalError := by
  have h := expand_macro_pops_anonymous_slot [Component.Str "mymod", Component.Macro 0] 0
    (by decide) (by decide)
  refine ⟨h.1, h.2.2 [Component.Str "mymod", Component.Str "f"] ?_⟩
  intro j hj
  have hj2 : some (Component.Str "f") = some (Component.Macro j) := hj
  injection hj2 with hj3
  exact Component.noConfusion hj3

end Rune

namespace Rune

/-- Full description of the storage after a successful `append_child` at a
valid index: a fresh node at the old length whose parent is `r`, the node at
`r` with the fresh index appended to its child list, and every other slot
untouched. -/
theorem appendChild_ok_lookup {t : Inner} {r : Nat} {nm : String} {k : PathKind}
    {v : Visibility} {g : Nat} {t' : Inner}
    (h : t.appendChild r nm k v = .ok (g, t')) (hr : r < t.storage.length) :
    g = t.storage.length
    ∧ t'.storage.length = t.storage.length + 1
    ∧ t'.current = t.current
    ∧ (∀ j, j ≠ r → t'.storage[j]? = (t.storage ++
        [{ id := g, vis := v, parent := some r, name := nm, kind := k,
           children := [] }])[j]?)
    ∧ (∃ partr, t.storage[r]? = some partr ∧
        t'.storage[r]? = some { partr with children := partr.children ++ [g] }) := by
  rw [Inner.appendChild] at h
  cases hp : t.push r nm k v with
  | error e => rw [hp] at h; exact Except.noConfusion h
  | ok rp =>
    rw [hp] at h
    obtain ⟨gp, t1⟩ := rp
    obtain ⟨hg, hst, hcur⟩ := push_ok_shape hp
    have hrlt : r < t1.storage.length := by
      rw [hst]
      simp only [List.length_append, List.length_cons, List.length_nil]
      omega
    simp only [hrlt, if_true, Except.ok.injEq, Prod.mk.injEq] at h
    obtain ⟨hgg, ht'⟩ := h
    subst hgg
    obtain ⟨partr, hpartr⟩ : ∃ partr, t.storage[r]? = some partr :=
      ⟨_, List.getElem?_eq_getElem hr⟩
    have hpartr1 : t1.storage[r]? = some partr := by
      rw [hst, List.getElem?_append_left hr]
      exact hpartr
    subst ht'
    rw [Inner.appendChildId, hpartr1]
    subst hg
    refine ⟨rfl, ?_, hcur, ?_, partr, hpartr, ?_⟩
    · simp [hst]
    · intro j hj
      simp only []
      rw [List.getElem?_set_ne (fun he => hj he.symm)]
      rw [hst]
    · simp only []
      rw [List.getElem?_set_eq_of_lt _ hrlt]

/-- The claimed structural invariant: stored ids equal arena indices (never
reused), every parent pointer goes strictly downward (hence no cycles), and
the parent's child list contains the node. -/
def TreeInv (t : Inner) : Prop :=
  ∀ (i : Nat) (part : PathPart), t.storage[i]? = some part →
    part.id = i ∧ ∀ p, part.parent = some p →
      p < i ∧ ∃ pp, t.storage[p]? = some pp ∧ i ∈ pp.children

theorem treeInv_emptyTree : TreeInv Inner.emptyTree := by
  intro i part hi
  rw [Inner.emptyTree] at hi
  match i, hi with
  | 0, hi =>
    simp only [List.getElem?_cons_zero, Option.some.injEq] at hi
    subst hi
    exact ⟨rfl, fun p hp => Option.noConfusion hp⟩

theorem treeInv_appendChild {t : Inner} {r : Nat} {nm : String} {k : PathKind}
    {v : Visibility} {g : Nat} {t' : Inner}
    (h : t.appendChild r nm k v = .ok (g, t')) (hr : r < t.storage.length)
    (hinv : TreeInv t) : TreeInv t' := by
  obtain ⟨hg, hlen, _, hother, partr, hpartr, hrnew⟩ := appendChild_ok_lookup h hr
  intro i part hi
  by_cases hir : i = r
  · subst hir
    rw [hrnew] at hi
    injection hi with hi
    subst hi
    obtain ⟨hid, hpar⟩ := hinv i partr hpartr
    refine ⟨hid, ?_⟩
    intro p hp
    obtain ⟨hpi, pp, hpp, hmem⟩ := hpar p hp
    by_cases hpr : p = i
    · omega
    · refine ⟨hpi, pp, ?_, hmem⟩
      rw [hother p hpr, List.getElem?_append_left]
      · exact hpp
      · by_contra hge
        rw [List.getElem?_eq_none (by omega)] at hpp
        cases hpp
  · rw [hother i hir] at hi
    by_cases hig : i < t.storage.length
    · rw [List.getElem?_append_left hig] at hi
      obtain ⟨hid, hpar⟩ := hinv i part hi
      refine ⟨hid, ?_⟩
      intro p hp
      obtain ⟨hpi, pp, hpp, hmem⟩ := hpar p hp
      by_cases hpr : p = r
      · subst hpr
        rw [hpp] at hpartr
        injection hpartr with he
        subst he
        exact ⟨hpi, _, hrnew, by simp [hmem]⟩
      · refine ⟨hpi, pp, ?_, hmem⟩
        rw [hother p hpr, List.getElem?_append_left]
        · exact hpp
        · by_contra hge
          rw [List.getElem?_eq_none (by omega)] at hpp
          cases hpp
    · have hieq : i = t.storage.length := by
        by_contra hne2
        rw [List.getElem?_eq_none] at hi
        · cases hi
        · simp only [List.length_append, List.length_cons, List.length_nil]
          omega
      subst hieq
      rw [List.getElem?_concat_length] at hi
      injection hi with hi
      subst hi
      refine ⟨hg, ?_⟩
      intro p hp
      have hpr2 : p = r := by
        injection hp with hp2
        exact hp2.symm
      subst hpr2
      refine ⟨by omega, ?_⟩
      exact ⟨_, hrnew, by simp [hg]⟩

end Rune

namespace Rune

/-- Tree-growing operations named by claim C9: `push_scoped` on the current
node and `append_child` on an explicitly chosen node.  (`push` is only ever
reached through these; `append_sibling` is treated separately, see the
counterexample.) -/
inductive TreeOp where
  | scopedOp (name : String) (kind : PathKind) (vis : Visibility)
  | childOp (idx : Nat) (name : String) (kind : PathKind) (vis : Visibility)

/-- Validity of the node indices an operation sequence dereferences: each
`childOp` targets a node that exists when it runs (`PathRef`s in the source
can only hold such indices). -/
def validOps : Nat → List TreeOp → Bool
  | _, [] => true
  | len, .scopedOp _ _ _ :: ops => validOps (len + 1) ops
  | len, .childOp i _ _ _ :: ops => decide (i < len) && validOps (len + 1) ops

def execOps (t : Inner) : List TreeOp → Except ModelErr Inner
  | [] => .ok t
  | .scopedOp n k v :: ops =>
    match t.pushScoped n k v with
    | .error e => .error e
    | .ok (_, t1) => execOps t1 ops
  | .childOp i n k v :: ops =>
    match t.appendChild i n k v with
    | .error e => .error e
    | .ok (_, t1) => execOps t1 ops

theorem pushScoped_ok_parts {t : Inner} {n : String} {k : PathKind} {v : Visibility}
    {g : Nat} {t' : Inner} (h : t.pushScoped n k v = .ok (g, t')) :
    ∃ t1, t.appendChild t.current n k v = .ok (g, t1)
      ∧ t'.storage = t1.storage ∧ t'.current = g := by
  rw [Inner.pushScoped] at h
  cases hac : t.appendChild t.current n k v with
  | error e => rw [hac] at h; exact Except.noConfusion h
  | ok r =>
    rw [hac] at h
    obtain ⟨gi, t1⟩ := r
    injection h with hpair
    have hg2 : gi = g := congrArg Prod.fst hpair
    have ht2 : ({ storage := t1.storage, current := gi } : Inner) = t' :=
      congrArg Prod.snd hpair
    subst hg2
    subst ht2
    exact ⟨t1, hac ▸ rfl, rfl, rfl⟩

/-- `TreeInv` only looks at the storage. -/
theorem treeInv_of_storage_eq {t t' : Inner} (h : t'.storage = t.storage)
    (hinv : TreeInv t) : TreeInv t' := by
  intro i part hi
  rw [h] at hi
  obtain ⟨hid, hpar⟩ := hinv i part hi
  refine ⟨hid, fun p hp => ?_⟩
  obtain ⟨hpi, pp, hpp, hmem⟩ := hpar p hp
  exact ⟨hpi, pp, by rw [h]; exact hpp, hmem⟩

/-- Claim C9 (amended): after any valid sequence of `push_scoped` /
`append_child` operations, the structural invariant holds: ids equal arena
indices and are never reused, parent pointers go strictly downward (so there
are no cycles), and every non-root node is listed in its parent's child
list. -/
theorem tree_invariant_amended (ops : List TreeOp) :
    ∀ (t t' : Inner), validOps t.storage.length ops = true →
      t.current < t.storage.length → TreeInv t → execOps t ops = .ok t' →
      TreeInv t' ∧ t'.current < t'.storage.length := by
  induction ops with
  | nil =>
    intro t t' _ hcur hinv h
    rw [execOps] at h
    cases h
    exact ⟨hinv, hcur⟩
  | cons op ops ih =>
    intro t t' hv hcur hinv h
    cases op with
    | scopedOp n k v =>
      rw [execOps] at h
      cases hps : t.pushScoped n k v with
      | error e => rw [hps] at h; exact Except.noConfusion h
      | ok r =>
        rw [hps] at h
        obtain ⟨g, t1⟩ := r
        obtain ⟨t2, hac, hst, hcur1⟩ := pushScoped_ok_parts hps
        obtain ⟨hg, hlen, _, _, _⟩ := appendChild_ok_lookup hac hcur
        have hinv1 : TreeInv t1 :=
          treeInv_of_storage_eq hst (treeInv_appendChild hac hcur hinv)
        have hlen1 : t1.storage.length = t.storage.length + 1 := by rw [hst]; exact hlen
        rw [validOps] at hv
        refine ih t1 t' ?_ ?_ hinv1 h
        · rw [hlen1]; exact hv
        · rw [hcur1, hlen1]; omega
    | childOp i n k v =>
      rw [execOps] at h
      cases hac : t.appendChild i n k v with
      | error e => rw [hac] at h; exact Except.noConfusion h
      | ok r =>
        rw [hac] at h
        obtain ⟨g, t1⟩ := r
        rw [validOps, Bool.and_eq_true] at hv
        have hi : i < t.storage.length := by
          have := hv.1
          simpa using this
        obtain ⟨hg, hlen, hcur1, _, _⟩ := appendChild_ok_lookup hac hi
        have hinv1 : TreeInv t1 := treeInv_appendChild hac hi hinv
        refine ih t1 t' ?_ ?_ hinv1 h
        · rw [hlen]; exact hv.2
        · rw [hcur1, hlen]; omega

/-- Tree produced by `append_sibling`: `"" → a`, then a sibling `b` of `a`. -/
def c9SibTree : Inner :=
  appendSiblingD (appendChildD Inner.emptyTree 0 "a" .Mod .Public) 1 "b" .Mod

/-- Claim C9 (counterexample): after `append_child("a")` followed by
`append_sibling("b")`, node 2 has parent 0 but node 0's child list is `[1]`:
the claimed invariant fails for sequences containing `append_sibling`, which
never registers the new node in its parent's child list. -/
theorem append_sibling_breaks_child_list_cex : ¬ TreeInv c9SibTree := by
  intro h
  obtain ⟨_, hpar⟩ := h 2
    { id := 2, vis := .None, parent := some 0, name := "b", kind := .Mod, children := [] }
    rfl
  obtain ⟨_, pp, hpp, hmem⟩ := hpar 0 rfl
  have h0 : c9SibTree.storage[0]? = some
      { id := 0, vis := .Public, parent := none, name := "", kind := .Package,
        children := [1] } := rfl
  rw [h0] at hpp
  injection hpp with he
  subst he
  simp at hmem

/-- Concrete operation sequence for the C9 witness. -/
def c9Ops : List TreeOp :=
  [.scopedOp "a" .Mod .Public, .childOp 1 "f" .Fn .Private]

def c9ExecResult : Inner :=
  match execOps Inner.emptyTree c9Ops with
  | .ok t => t
  | .error _ => Inner.emptyTree

/-- Claim C9 (witness): the invariant theorem applied to the concrete
sequence. -/
theorem tree_invariant_amended_witness :
    execOps Inner.emptyTree c9Ops = .ok c9ExecResult ∧ TreeInv c9ExecResult :=
  ⟨rfl,
    (tree_invariant_amended c9Ops Inner.emptyTree c9ExecResult (by decide) (by decide)
      treeInv_emptyTree rfl).1⟩

end Rune

namespace Rune

/-- `Node` from `items.rs`: a path component plus its anonymous-child
counter. -/
structure ItemsNode where
  children : Nat
  component : Component
deriving DecidableEq, Repr

/-- A heap of shared cells: `Items` holds `Rc<RefCell<Vec<Node>>>` and a
`PathTree` holding `Rc<RefCell<Inner>>`; each `Rc` cell is an index into
this heap, so aliasing (copy versus view) is observable. -/
structure Heap where
  paths : List (List ItemsNode)
  trees : List Inner
deriving DecidableEq, Repr

/-- A handle to an `Items`: the indices of its two cells. -/
structure ItemsHandle where
  pathCell : Nat
  treeCell : Nat
deriving DecidableEq, Repr

def Heap.readPath (h : Heap) (it : ItemsHandle) : List ItemsNode :=
  (h.paths[it.pathCell]?).getD []

def Heap.readTree (h : Heap) (it : ItemsHandle) : Inner :=
  (h.trees[it.treeCell]?).getD Inner.emptyTree

/-- `Items::snapshot`: `Rc::new(RefCell::new(self.path.borrow().clone()))`
and `PathTree::cloned` — two fresh cells holding copies of the current
contents, never the old cells themselves. -/
def Heap.snapshot (h : Heap) (it : ItemsHandle) : ItemsHandle × Heap :=
  (⟨h.paths.length, h.trees.length⟩,
   { paths := h.paths ++ [h.readPath it], trees := h.trees ++ [h.readTree it] })

/-- `Items::next_child`: bump the last node's child counter, returning its
previous value as the next anonymous index. -/
def nextChild (path : List ItemsNode) : Nat × List ItemsNode :=
  match path.getLast? with
  | some node =>
    (node.children, path.dropLast ++ [{ node with children := node.children + 1 }])
  | none => (0, path)

/-- The mutations of a live `Items` named by claim C10: named pushes,
anonymous block pushes, pops, and direct child appends on the tree. -/
inductive ItemsOp where
  | pushNamedOp (name : String) (kind : PathKind) (vis : Visibility)
  | pushBlockOp
  | popOp
  | childOp (idx : Nat) (name : String) (kind : PathKind) (vis : Visibility)

/-- One mutation through the live handle: reads and writes go through the
handle's cells only. -/
def execItemsOp (h : Heap) (it : ItemsHandle) : ItemsOp → Except ModelErr Heap
  | .pushNamedOp n k v =>
    let path := h.readPath it
    let t := h.readTree it
    let path1 := path ++ [{ children := 0, component := Component.Str n }]
    match t.pushScoped n k v with
    | .error e => .error e
    | .ok (_, t1) =>
      .ok { paths := h.paths.set it.pathCell path1, trees := h.trees.set it.treeCell t1 }
  | .pushBlockOp =>
    let path := h.readPath it
    let t := h.readTree it
    let r := nextChild path
    let path1 := r.2 ++ [{ children := 0, component := Component.Block r.1 }]
    match t.pushScoped (toString r.1) .Block .None with
    | .error e => .error e
    | .ok (_, t1) =>
      .ok { paths := h.paths.set it.pathCell path1, trees := h.trees.set it.treeCell t1 }
  | .popOp =>
    let path := h.readPath it
    .ok { paths := h.paths.set it.pathCell path.dropLast, trees := h.trees }
  | .childOp i n k v =>
    let t := h.readTree it
    match t.appendChild i n k v with
    | .error e => .error e
    | .ok (_, t1) => .ok { paths := h.paths, trees := h.trees.set it.treeCell t1 }

def execItems (it : ItemsHandle) : Heap → List ItemsOp → Except ModelErr Heap
  | h, [] => .ok h
  | h, op :: ops =>
    match execItemsOp h it op with
    | .error e => .error e
    | .ok h1 => execItems it h1 ops

theorem execItemsOp_frame {h : Heap} {it : ItemsHandle} {op : ItemsOp} {h1 : Heap}
    (hx : execItemsOp h it op = .ok h1) :
    (∀ j, j ≠ it.pathCell → h1.paths[j]? = h.paths[j]?)
    ∧ (∀ j, j ≠ it.treeCell → h1.trees[j]? = h.trees[j]?) := by
  cases op with
  | pushNamedOp n k v =>
    rw [execItemsOp] at hx
    split at hx
    · exact Except.noConfusion hx
    · injection hx with hx
      subst hx
      constructor
      · intro j hj
        exact List.getElem?_set_ne (fun he => hj he.symm)
      · intro j hj
        exact List.getElem?_set_ne (fun he => hj he.symm)
  | pushBlockOp =>
    rw [execItemsOp] at hx
    split at hx
    · exact Except.noConfusion hx
    · injection hx with hx
      subst hx
      constructor
      · intro j hj
        exact List.getElem?_set_ne (fun he => hj he.symm)
      · intro j hj
        exact List.getElem?_set_ne (fun he => hj he.symm)
  | popOp =>
    rw [execItemsOp] at hx
    injection hx with hx
    subst hx
    constructor
    · intro j hj
      exact List.getElem?_set_ne (fun he => hj he.symm)
    · intro j _
      rfl
  | childOp i n k v =>
    rw [execItemsOp] at hx
    split at hx
    · exact Except.noConfusion hx
    · injection hx with hx
      subst hx
      constructor
      · intro j _
        rfl
      · intro j hj
        exact List.getElem?_set_ne (fun he => hj he.symm)

theorem execItems_frame {it : ItemsHandle} (ops : List ItemsOp) :
    ∀ (h h1 : Heap), execItems it h ops = .ok h1 →
      (∀ j, j ≠ it.pathCell → h1.paths[j]? = h.paths[j]?)
      ∧ (∀ j, j ≠ it.treeCell → h1.trees[j]? = h.trees[j]?) := by
  induction ops with
  | nil =>
    intro h h1 hx
    rw [execItems] at hx
    injection hx with hx
    subst hx
    exact ⟨fun _ _ => rfl, fun _ _ => rfl⟩
  | cons op ops ih =>
    intro h h1 hx
    rw [execItems] at hx
    cases hop : execItemsOp h it op with
    | error e => rw [hop] at hx; exact Except.noConfusion hx
    | ok h2 =>
      rw [hop] at hx
      obtain ⟨hp1, ht1⟩ := execItemsOp_frame hop
      obtain ⟨hp2, ht2⟩ := ih h2 h1 hx
      exact ⟨fun j hj => (hp2 j hj).trans (hp1 j hj),
             fun j hj => (ht2 j hj).trans (ht1 j hj)⟩

/-- Claim C10: whatever mutations run against the live `Items` after a
`snapshot`, reading the snapshot's cells still yields exactly the contents
copied at snapshot time: the current path and the whole tree (hence every
node's name, kind, visibility and child list) observed through the snapshot
are unchanged — snapshots are copies, never views. -/
theorem snapshot_immune_to_live_mutation (h : Heap) (it : ItemsHandle)
    (ops : List ItemsOp) (h2 : Heap)
    (hp : it.pathCell < h.paths.length) (ht : it.treeCell < h.trees.length)
    (hexec : execItems it (h.snapshot it).2 ops = .ok h2) :
    h2.paths[(h.snapshot it).1.pathCell]? = some (h.readPath it)
    ∧ h2.trees[(h.snapshot it).1.treeCell]? = some (h.readTree it) := by
  obtain ⟨hpf, htf⟩ := execItems_frame ops (h.snapshot it).2 h2 hexec
  constructor
  · show h2.paths[h.paths.length]? = some (h.readPath it)
    rw [hpf h.paths.length (by omega)]
    show (h.paths ++ [h.readPath it])[h.paths.length]? = some (h.readPath it)
    exact List.getElem?_concat_length _ _
  · show h2.trees[h.trees.length]? = some (h.readTree it)
    rw [htf h.trees.length (by omega)]
    show (h.trees ++ [h.readTree it])[h.trees.length]? = some (h.readTree it)
    exact List.getElem?_concat_length _ _

/-- Concrete heap and program for the C10 witness. -/
def c10Heap : Heap := { paths := [[]], trees := [Inner.emptyTree] }

def c10Handle : ItemsHandle := ⟨0, 0⟩

def c10Ops : List ItemsOp :=
  [.pushNamedOp "a" .Mod .Public, .pushBlockOp, .popOp]

def c10Result : Heap :=
  match execItems c10Handle (c10Heap.snapshot c10Handle).2 c10Ops with
  | .ok h => h
  | .error _ => c10Heap

/-- Claim C10 (witness): the frame theorem applied to the concrete heap and
mutation sequence. -/
theorem snapshot_immune_to_live_mutation_witness :
    execItems c10Handle (c10Heap.snapshot c10Handle).2 c10Ops = .ok c10Result
    ∧ c10Result.paths[1]? = some (c10Heap.readPath c10Handle)
    ∧ c10Result.trees[1]? = some (c10Heap.readTree c10Handle) := by
  have h := snapshot_immune_to_live_mutation c10Heap c10Handle c10Ops c10Result
    (by decide) (by decide) rfl
  exact ⟨rfl, h.1, h.2⟩

end Rune

namespace Rune

/-- `Component` rendered as a path-component string, following the convention
of `QualifiedPath::from(&Item)` in `worker.rs`: named components keep their
string, numbered components render their index. -/
def Component.toName : Component → String
  | .Str s => s
  | .Block n => toString n
  | .Closure n => toString n
  | .AsyncBlock n => toString n
  | .Macro n => toString n

/-- `Item::of(QualifiedPath::into_iter(qualified_path))`: the import's target
item, with empty root components filtered out (the `retain` in
`QualifiedPath::into_iter`). -/
def nameItem (qualifiedPath : List String) : List Component :=
  (qualifiedPath.filter (fun s => !s.isEmpty)).map Component.Str

/-- Errors of `Import::process`: the `MissingModule` compile error, or a
panic (`expect` / `unwrap`). -/
inductive ImportErr where
  | MissingModule (item : List Component)
  | Panicked (msg : String)
deriving DecidableEq, Repr

def ImportErr.ofModel : ModelErr → ImportErr
  | .tree _ => .Panicked "could not reslove path"
  | .panicked m => .Panicked m

/-- One alias registration (`item_ref.append_child(..)` in
`Import::process`). -/
structure AliasRec where
  name : String
  kind : PathKind
  vis : Visibility
deriving DecidableEq, Repr

/-- The `(vis, kind)` lookup of the wildcard branch: find the child path in
the tree, defaulting to `(Public, Use(0))` when resolution fails. -/
def useLookup (t : Inner) (qualpath : List String) : Visibility × PathKind :=
  match t.find qualpath with
  | .ok p => (t.visOf p, PathKind.Use (t.idOf p))
  | .error _ => (Visibility.Public, PathKind.Use 0)

/-- The `kind` lookup of the non-wildcard branch: `Use(found id)`, with the
deferred unresolved-alias placeholder `Use(0)` when resolution fails. -/
def useKind (t : Inner) (qualpath : List String) : PathKind :=
  match t.find qualpath with
  | .ok p => PathKind.Use (t.idOf p)
  | .error _ => PathKind.Use 0

/-- The effective visibility the wildcard filter tests for a child
component. -/
def effVis (t : Inner) (qp : List String) (c : Component) : Visibility :=
  (useLookup t (qp ++ [Component.toName c])).1

/-- The loop body of the wildcard branch of `Import::process`, threading the
scope tree and accumulating, in order, the alias registrations
(`item_ref.append_child`) and the symbol-table import names (`new_names`).
`String` components whose looked-up visibility is `Private` are skipped
entirely; non-`String` components register no alias but still get an import
entry. -/
def processWildcardLoop (qp : List String) (name : List Component) (r : Nat)
    (dv : Visibility) :
    Inner → List Component →
      Except ImportErr (Inner × List AliasRec × List (List Component))
  | t, [] => .ok (t, [], [])
  | t, c :: cs =>
    match c with
    | Component.Str _ =>
      let qualpath := qp ++ [Component.toName c]
      let vk := useLookup t qualpath
      if vk.1 = Visibility.Private then
        processWildcardLoop qp name r dv t cs
      else
        match t.appendChild r ((qualpath.getLast?).getD "") vk.2 dv with
        | .error e => .error (ImportErr.ofModel e)
        | .ok (_, t1) =>
          match processWildcardLoop qp name r dv t1 cs with
          | .error e => .error e
          | .ok (t2, als, ns) =>
            .ok (t2,
              { name := (qualpath.getLast?).getD "", kind := vk.2, vis := dv } :: als,
              (name ++ [c]) :: ns)
    | _ =>
      match processWildcardLoop qp name r dv t cs with
      | .error e => .error e
      | .ok (t2, als, ns) => .ok (t2, als, (name ++ [c]) :: ns)

/-- The wildcard arm of `Import::process`: `MissingModule` when neither the
context nor the unit contains the prefix, otherwise process every enumerated
child component. -/
def processWildcard (t : Inner) (r : Nat) (qp : List String) (dv : Visibility)
    (ctxHasPfx unitHasPfx : Bool) (comps : List Component) :
    Except ImportErr (Inner × List AliasRec × List (List Component)) :=
  let name := nameItem qp
  if !ctxHasPfx && !unitHasPfx then .error (.MissingModule name)
  else processWildcardLoop qp name r dv t comps

/-- The non-wildcard (`PathSegment`) arm of `Import::process`: look the path
up in the tree (placeholder `Use(0)` when absent — no `MissingModule` check
here), register one alias under the importer and one symbol-table import. -/
def processNonWildcard (t : Inner) (r : Nat) (qp : List String) (dv : Visibility) :
    Except ImportErr (Inner × AliasRec × List Component) :=
  let kind := useKind t qp
  match qp.getLast? with
  | none => .error (.Panicked "called unwrap on None")
  | some lastName =>
    match t.appendChild r lastName kind dv with
    | .error e => .error (ImportErr.ofModel e)
    | .ok (_, t1) => .ok (t1, { name := lastName, kind := kind, vis := dv }, nameItem qp)

/-- The nodes whose child lists the walk of `findAux` reads. -/
def Inner.findVisitsAux (t : Inner) : List String → Nat → List Nat
  | [], _ => []
  | c :: rest, current =>
    current ::
      (match t.childNamed (t.childrenOf current) c with
       | some child => t.findVisitsAux rest child
       | none => [])

theorem findq_congr (l : List Nat) (f g : Nat → Bool) :
    (∀ a ∈ l, f a = g a) → l.find? f = l.find? g := by
  induction l with
  | nil => intro _; rfl
  | cons a l ih =>
    intro h
    rw [List.find?_cons, List.find?_cons, h a (List.mem_cons_self a l)]
    cases g a with
    | true => rfl
    | false => exact ih (fun b hb => h b (List.mem_cons_of_mem a hb))

/-- The walk of `find` is unchanged between two trees that agree on the child
lists of every visited node and on the names of those nodes' children. -/
theorem findAux_congr (t t2 : Inner) (disp : String) :
    ∀ (cs : List String) (current : Nat) (last : Option Nat),
      (∀ i ∈ t.findVisitsAux cs current,
        t2.childrenOf i = t.childrenOf i
        ∧ ∀ c ∈ t.childrenOf i, t2.nameOf c = t.nameOf c) →
      t2.findAux disp cs current last = t.findAux disp cs current last
      ∧ t2.findVisitsAux cs current = t.findVisitsAux cs current := by
  intro cs
  induction cs with
  | nil => intro current last _; exact ⟨rfl, rfl⟩
  | cons c rest ih =>
    intro current last h
    have hcur := h current (by rw [Inner.findVisitsAux]; exact List.mem_cons_self _ _)
    have hchild : t2.childNamed (t2.childrenOf current) c =
        t.childNamed (t.childrenOf current) c := by
      rw [Inner.childNamed, Inner.childNamed, hcur.1]
      exact findq_congr _ _ _ (fun a ha => by rw [hcur.2 a ha])
    cases hm : t.childNamed (t.childrenOf current) c with
    | some child =>
      have hrest : ∀ i ∈ t.findVisitsAux rest child,
          t2.childrenOf i = t.childrenOf i
          ∧ ∀ c ∈ t.childrenOf i, t2.nameOf c = t.nameOf c := by
        intro i hi
        refine h i ?_
        rw [Inner.findVisitsAux, hm]
        exact List.mem_cons_of_mem _ hi
      obtain ⟨hfa, hfv⟩ := ih child (some child) hrest
      constructor
      · simp only [Inner.findAux]
        rw [hchild, hm]
        exact hfa
      · simp only [Inner.findVisitsAux]
        rw [hchild, hm]
        exact congrArg (List.cons current) hfv
    | none =>
      constructor
      · simp only [Inner.findAux]
        rw [hchild, hm]
        cases rest with
        | cons p ps => rfl
        | nil =>
          rw [hcur.1]
      · simp only [Inner.findVisitsAux]
        rw [hchild, hm]

end Rune

namespace Rune

/-- Conditions letting the importer node `r` be mutated without disturbing a
`find` walk: `r` is never visited, and the visited region is in range. -/
abbrev FindStable (t : Inner) (r : Nat) (cs : List String) : Prop :=
  r ∉ t.findVisitsAux cs 0
  ∧ ∀ i ∈ t.findVisitsAux cs 0,
      i < t.storage.length ∧ ∀ c ∈ t.childrenOf i, c < t.storage.length

/-- `t'` is `t0` with children possibly appended under `r` and fresh nodes
appended at the end: everything except `r`'s child list is preserved. -/
abbrev ImportExtends (t0 : Inner) (r : Nat) (t' : Inner) : Prop :=
  t0.storage.length ≤ t'.storage.length
  ∧ (∀ j, j < t0.storage.length → j ≠ r → t'.storage[j]? = t0.storage[j]?)
  ∧ (∀ part : PathPart, t0.storage[r]? = some part →
      ∃ part' : PathPart, t'.storage[r]? = some part'
        ∧ part'.id = part.id ∧ part'.name = part.name ∧ part'.kind = part.kind
        ∧ part'.vis = part.vis ∧ part'.parent = part.parent)

theorem importExtends_refl (t0 : Inner) (r : Nat) : ImportExtends t0 r t0 :=
  ⟨Nat.le_refl _, fun _ _ _ => rfl,
   fun part h => ⟨part, h, rfl, rfl, rfl, rfl, rfl⟩⟩

theorem importExtends_appendChild {t0 t t1 : Inner} {r g : Nat} {nm : String}
    {k : PathKind} {v : Visibility}
    (hr0 : r < t0.storage.length) (hex : ImportExtends t0 r t)
    (h : t.appendChild r nm k v = .ok (g, t1)) : ImportExtends t0 r t1 := by
  have hrt : r < t.storage.length := by omega
  obtain ⟨hg, hlen, _, hother, partr, hpartr, hrnew⟩ := appendChild_ok_lookup h hrt
  refine ⟨by omega, ?_, ?_⟩
  · intro j hj hjr
    rw [hother j hjr, List.getElem?_append_left (by omega)]
    exact hex.2.1 j hj hjr
  · intro part hp
    obtain ⟨part', hpart', hid, hnm, hk, hv, hpar⟩ := hex.2.2 part hp
    rw [hpart'] at hpartr
    injection hpartr with he
    subst he
    exact ⟨_, hrnew, hid, hnm, hk, hv, hpar⟩

/-- When `findAux` succeeds starting from an empty `last`, the returned node
is a child of some visited node. -/
theorem findAux_ok_mem (t : Inner) (disp : String) :
    ∀ (cs : List String) (current : Nat) (last : Option Nat) (p : Nat),
      t.findAux disp cs current last = .ok p →
      last = some p ∨ ∃ i ∈ t.findVisitsAux cs current, p ∈ t.childrenOf i := by
  intro cs
  induction cs with
  | nil =>
    intro current last p h
    simp only [Inner.findAux] at h
    cases last with
    | none => exact Except.noConfusion h
    | some l =>
      injection h with he
      subst he
      exact Or.inl rfl
  | cons c rest ih =>
    intro current last p h
    simp only [Inner.findAux] at h
    cases hm : t.childNamed (t.childrenOf current) c with
    | some child =>
      rw [hm] at h
      rcases ih child (some child) p h with he | ⟨i, hi, hpi⟩
      · injection he with he
        subst he
        refine Or.inr ⟨current, ?_, ?_⟩
        · rw [Inner.findVisitsAux]
          exact List.mem_cons_self _ _
        · rw [Inner.childNamed] at hm
          exact List.mem_of_find?_eq_some hm
      · refine Or.inr ⟨i, ?_, hpi⟩
        rw [Inner.findVisitsAux, hm]
        exact List.mem_cons_of_mem _ hi
    | none =>
      rw [hm] at h
      cases rest with
      | cons q qs => exact Except.noConfusion h
      | nil =>
        cases hemp : (t.childrenOf current).isEmpty with
        | false => rw [hemp] at h; exact Except.noConfusion h
        | true =>
          rw [hemp] at h
          cases last with
          | none => exact Except.noConfusion h
          | some l =>
            injection h with he
            subst he
            exact Or.inl rfl

/-- Stability of a `find` walk under `ImportExtends`: the later tree gives
the same walk and the same visit set. -/
theorem find_stable (t0 : Inner) (r : Nat) (cs : List String) (t : Inner) (disp : String)
    (hst : FindStable t0 r cs) (hex : ImportExtends t0 r t) :
    t.findAux disp cs 0 none = t0.findAux disp cs 0 none
    ∧ t.findVisitsAux cs 0 = t0.findVisitsAux cs 0 := by
  refine findAux_congr t0 t disp cs 0 none ?_
  intro i hi
  have hir : i ≠ r := fun he => hst.1 (he ▸ hi)
  have hilt : i < t0.storage.length := (hst.2 i hi).1
  have hieq : t.storage[i]? = t0.storage[i]? := hex.2.1 i hilt hir
  constructor
  · rw [Inner.childrenOf, Inner.childrenOf, hieq]
  · intro c hc
    have hclt : c < t0.storage.length := (hst.2 i hi).2 c hc
    by_cases hcr : c = r
    · subst hcr
      obtain ⟨part, hpart⟩ : ∃ part, t0.storage[c]? = some part :=
        ⟨_, List.getElem?_eq_getElem hclt⟩
      obtain ⟨part', hpart', _, hnm, _, _, _⟩ := hex.2.2 part hpart
      rw [Inner.nameOf, Inner.nameOf, hpart, hpart']
      rw [Option.map_some', Option.map_some', Option.getD_some, Option.getD_some, hnm]
    · rw [Inner.nameOf, Inner.nameOf, hex.2.1 c hclt hcr]

/-- Stability of the `(vis, kind)` lookup of the wildcard branch. -/
theorem useLookup_stable (t0 : Inner) (r : Nat) (qualpath : List String) (t : Inner)
    (hst : FindStable t0 r (qualpath.filter (fun s => !s.isEmpty)))
    (hex : ImportExtends t0 r t) :
    useLookup t qualpath = useLookup t0 qualpath := by
  have hfind : t.find qualpath = t0.find qualpath := by
    rw [Inner.find, Inner.find]
    exact (find_stable t0 r _ t (qualToString qualpath) hst hex).1
  rw [useLookup, useLookup, hfind]
  cases hf : t0.find qualpath with
  | error e => rfl
  | ok p =>
    show (t.visOf p, PathKind.Use (t.idOf p)) = (t0.visOf p, PathKind.Use (t0.idOf p))
    have hmem : p < t0.storage.length := by
      rw [Inner.find] at hf
      rcases findAux_ok_mem t0 (qualToString qualpath) _ 0 none p hf with he | ⟨i, hi, hpi⟩
      · exact Option.noConfusion he
      · exact (hst.2 i hi).2 p hpi
    by_cases hpr : p = r
    · subst hpr
      obtain ⟨part, hpart⟩ : ∃ part, t0.storage[p]? = some part :=
        ⟨_, List.getElem?_eq_getElem hmem⟩
      obtain ⟨part', hpart', hid, _, _, hv, _⟩ := hex.2.2 part hpart
      rw [Inner.visOf, Inner.visOf, Inner.idOf, Inner.idOf, hpart, hpart']
      simp only [Option.map_some', Option.getD_some]
      rw [hid, hv]
    · have hieq : t.storage[p]? = t0.storage[p]? := hex.2.1 p hmem hpr
      rw [Inner.visOf, Inner.visOf, Inner.idOf, Inner.idOf, hieq]

/-- `append_child` cannot fail below the id limit at a valid index. -/
theorem appendChild_succeeds (t : Inner) (r : Nat) (nm : String) (k : PathKind)
    (v : Visibility) (hlen : t.storage.length < 2 ^ 32) (hr : r < t.storage.length) :
    ∃ g t1, t.appendChild r nm k v = .ok (g, t1) := by
  rw [Inner.appendChild, Inner.push]
  have h1 : ¬ (t.storage.length ≥ 2 ^ 32) := by omega
  have h2 : ¬ (r ≥ 2 ^ 32) := by omega
  rw [if_neg h1, if_neg h2]
  refine ⟨_, _, if_pos ?_⟩
  simp only [List.length_append, List.length_cons, List.length_nil]
  omega

end Rune

namespace Rune

theorem processWildcardLoop_spec (t0 : Inner) (r : Nat) (qp : List String)
    (dv : Visibility) (name : List Component) (hr0 : r < t0.storage.length) :
    ∀ (comps : List Component) (t : Inner),
      ImportExtends t0 r t →
      (∀ c ∈ comps, ∃ s, c = Component.Str s) →
      (∀ c ∈ comps, FindStable t0 r
        ((qp ++ [Component.toName c]).filter (fun s => !s.isEmpty))) →
      t.storage.length + comps.length ≤ 2 ^ 32 →
      ∃ t' als ns, processWildcardLoop qp name r dv t comps = .ok (t', als, ns)
        ∧ als.map AliasRec.name =
            (comps.filter (fun c => !(effVis t0 qp c == Visibility.Private))).map
              Component.toName
        ∧ (∀ a ∈ als, a.vis = dv)
        ∧ ns = (comps.filter (fun c => !(effVis t0 qp c == Visibility.Private))).map
            (fun c => name ++ [c])
        ∧ ImportExtends t0 r t' := by
  intro comps
  induction comps with
  | nil =>
    intro t hex _ _ _
    exact ⟨t, [], [], rfl, rfl, by simp, rfl, hex⟩
  | cons c cs ih =>
    intro t hex hstr hstable hroom
    obtain ⟨s, hcs⟩ := hstr c (List.mem_cons_self c cs)
    subst hcs
    simp only [List.length_cons] at hroom
    have hroom2 : t.storage.length + cs.length ≤ 2 ^ 32 := by omega
    have hlook : useLookup t (qp ++ [Component.toName (Component.Str s)]) =
        useLookup t0 (qp ++ [Component.toName (Component.Str s)]) :=
      useLookup_stable t0 r _ t (hstable _ (List.mem_cons_self _ _)) hex
    have hstep : processWildcardLoop qp name r dv t (Component.Str s :: cs) =
        (if (useLookup t (qp ++ [Component.toName (Component.Str s)])).1 =
            Visibility.Private then
          processWildcardLoop qp name r dv t cs
        else
          match t.appendChild r
              (((qp ++ [Component.toName (Component.Str s)]).getLast?).getD "")
              (useLookup t (qp ++ [Component.toName (Component.Str s)])).2 dv with
          | Except.error e => Except.error (ImportErr.ofModel e)
          | Except.ok (_, t1) =>
            match processWildcardLoop qp name r dv t1 cs with
            | Except.error e => Except.error e
            | Except.ok (t2, als, ns) =>
              Except.ok (t2,
                (⟨((qp ++ [Component.toName (Component.Str s)]).getLast?).getD "",
                  (useLookup t (qp ++ [Component.toName (Component.Str s)])).2, dv⟩
                    : AliasRec) :: als,
                (name ++ [Component.Str s]) :: ns)) := rfl
    by_cases hpriv : effVis t0 qp (Component.Str s) = Visibility.Private
    · obtain ⟨t', als, ns, hloop, h1, h2, h3, hex'⟩ := ih t hex
        (fun c hc => hstr c (List.mem_cons_of_mem _ hc))
        (fun c hc => hstable c (List.mem_cons_of_mem _ hc)) hroom2
      have hpriv2 : (useLookup t0 (qp ++ [Component.toName (Component.Str s)])).1 =
          Visibility.Private := hpriv
      have hfilter :
          (Component.Str s :: cs).filter
              (fun c => !(effVis t0 qp c == Visibility.Private)) =
            cs.filter (fun c => !(effVis t0 qp c == Visibility.Private)) := by
        rw [List.filter_cons]
        simp [hpriv]
      refine ⟨t', als, ns, ?_, ?_, h2, ?_, hex'⟩
      · rw [hstep, hlook, if_pos hpriv2]
        exact hloop
      · rw [hfilter]
        exact h1
      · rw [hfilter]
        exact h3
    · have hrt : r < t.storage.length := by
        have := hex.1
        omega
      have hlen : t.storage.length < 2 ^ 32 := by omega
      obtain ⟨g, t1, hac⟩ := appendChild_succeeds t r
        (((qp ++ [Component.toName (Component.Str s)]).getLast?).getD "")
        (useLookup t0 (qp ++ [Component.toName (Component.Str s)])).2 dv hlen hrt
      have hex1 : ImportExtends t0 r t1 := importExtends_appendChild hr0 hex hac
      obtain ⟨_, hlen1, _, _, _⟩ := appendChild_ok_lookup hac hrt
      obtain ⟨t', als, ns, hloop, h1, h2, h3, hex'⟩ := ih t1 hex1
        (fun c hc => hstr c (List.mem_cons_of_mem _ hc))
        (fun c hc => hstable c (List.mem_cons_of_mem _ hc))
        (by rw [hlen1]; omega)
      have hpriv2 : ¬ ((useLookup t0 (qp ++ [Component.toName (Component.Str s)])).1 =
          Visibility.Private) := hpriv
      have hfilter :
          (Component.Str s :: cs).filter
              (fun c => !(effVis t0 qp c == Visibility.Private)) =
            Component.Str s ::
              cs.filter (fun c => !(effVis t0 qp c == Visibility.Private)) := by
        rw [List.filter_cons]
        have hb : (!(effVis t0 qp (Component.Str s) == Visibility.Private)) = true := by
          simp only [Bool.not_eq_true']
          exact beq_false_of_ne hpriv
        simp [hb]
      have hgl : ((qp ++ [Component.toName (Component.Str s)]).getLast?).getD "" =
          Component.toName (Component.Str s) := by
        rw [List.getLast?_concat]
        rfl
      refine ⟨t', ⟨((qp ++ [Component.toName (Component.Str s)]).getLast?).getD "",
          (useLookup t0 (qp ++ [Component.toName (Component.Str s)])).2, dv⟩ :: als,
        (name ++ [Component.Str s]) :: ns, ?_, ?_, ?_, ?_, hex'⟩
      · rw [hstep, hlook, if_neg hpriv2, hac]
        show (match processWildcardLoop qp name r dv t1 cs with
          | Except.error e => Except.error e
          | Except.ok (t2, als, ns) =>
            Except.ok (t2,
              (⟨((qp ++ [Component.toName (Component.Str s)]).getLast?).getD "",
                (useLookup t0 (qp ++ [Component.toName (Component.Str s)])).2, dv⟩
                  : AliasRec) :: als,
              (name ++ [Component.Str s]) :: ns)) = _
        rw [hloop]
      · rw [hfilter]
        simp only [List.map_cons]
        rw [h1, hgl]
      · intro a ha
        rcases List.mem_cons.mp ha with he | hm
        · subst he
          rfl
        · exact h2 a hm
      · rw [hfilter]
        simp only [List.map_cons]
        rw [h3]

end Rune

namespace Rune

/-- Claim C3: a wildcard import whose prefix exists registers exactly the
enumerated child components whose effective visibility (the tree lookup of
the wildcard branch, defaulting to `Public` when resolution fails) is not
`Private`: one alias per survivor (named after the child, carrying the use
declaration's visibility) and one symbol-table import entry per survivor, in
order.  Hypotheses: the enumerated components are named (`String`)
components, the importer node is valid and not on any of the lookup walks,
and the id space is not exhausted. -/
theorem wildcard_import_filters_private (t : Inner) (r : Nat) (qp : List String)
    (dv : Visibility) (u : Bool) (comps : List Component)
    (hr : r < t.storage.length)
    (hstr : ∀ c ∈ comps, ∃ s, c = Component.Str s)
    (hstable : ∀ c ∈ comps, FindStable t r
      ((qp ++ [Component.toName c]).filter (fun s => !s.isEmpty)))
    (hroom : t.storage.length + comps.length ≤ 2 ^ 32) :
    ∃ t' als ns, processWildcard t r qp dv true u comps = .ok (t', als, ns)
      ∧ als.map AliasRec.name =
          (comps.filter (fun c => !(effVis t qp c == Visibility.Private))).map
            Component.toName
      ∧ (∀ a ∈ als, a.vis = dv)
      ∧ ns = (comps.filter (fun c => !(effVis t qp c == Visibility.Private))).map
          (fun c => nameItem qp ++ [c]) := by
  obtain ⟨t', als, ns, hloop, h1, h2, h3, _⟩ := processWildcardLoop_spec t r qp dv
    (nameItem qp) hr comps t (importExtends_refl t r) hstr hstable hroom
  exact ⟨t', als, ns, hloop, h1, h2, h3⟩

/-- Tree for the C3 witness: `a::b` with a public `x` and a private `y`, and
an importer module `m`. -/
def c3Tree : Inner :=
  appendChildD
    (appendChildD
      (appendChildD
        (appendChildD
          (appendChildD Inner.emptyTree 0 "a" .Mod .Public)
          1 "b" .Mod .Public)
        2 "x" .Struct .Public)
      2 "y" .Struct .Private)
    0 "m" .Mod .Public

/-- Claim C3 (witness): `use a::b::*` from module `m` over the children
`x` (public) and `y` (private) aliases only `x` and registers a
single import entry. -/
theorem wildcard_import_filters_private_witness :
    (processWildcard c3Tree 5 ["a", "b"] .Public true false
        [Component.Str "x", Component.Str "y"]).toOption.map
      (fun x => (x.2.1.map AliasRec.name, x.2.2))
    = some (["x"], [[Component.Str "a", Component.Str "b", Component.Str "x"]]) := by
  have hstr : ∀ c ∈ [Component.Str "x", Component.Str "y"],
      ∃ s, c = Component.Str s := by
    intro c hc
    rcases List.mem_cons.mp hc with he | hc2
    · exact ⟨"x", he⟩
    · rcases List.mem_cons.mp hc2 with he | hc3
      · exact ⟨"y", he⟩
      · exact absurd hc3 (by simp)
  obtain ⟨t', als, ns, hp, h1, h2, h3⟩ := wildcard_import_filters_private c3Tree 5
    ["a", "b"] .Public false [Component.Str "x", Component.Str "y"]
    (by decide) hstr (by decide) (by decide)
  rw [hp]
  simp only [Except.toOption, Option.map_some']
  rw [h1, h3]
  rfl

/-- Claim C8 (counterexample): on a tree with no module `a` at all (and an
empty symbol table), the non-wildcard import `use a::b` does not report
`MissingModule`: it succeeds, registering the placeholder alias
`Use(0)` — even though `find` fails on the path. -/
theorem nonwildcard_missing_prefix_no_error_cex :
    (processNonWildcard Inner.emptyTree 0 ["a", "b"] Visibility.Public).toOption.map
      (fun x => x.2.1)
      = some { name := "b", kind := PathKind.Use 0, vis := Visibility.Public }
    ∧ Inner.emptyTree.find ["a", "b"] =
        .error (.UnresolvablePath "path resolution failed for a::b at b") :=
  ⟨rfl, rfl⟩

/-- Claim C8 (amended): only the wildcard arm of `Import::process` reports
`MissingModule` (whenever neither the context nor the unit contains the
prefix); a non-wildcard import whose path is wholly absent from the scope
tree does not error: it falls back to the deferred unresolved-alias
placeholder `Use(0)` and still registers one alias and one
symbol-table import entry. -/
theorem import_missing_module_amended :
    (∀ (t : Inner) (r : Nat) (qp : List String) (dv : Visibility)
       (comps : List Component),
       processWildcard t r qp dv false false comps =
         .error (.MissingModule (nameItem qp)))
    ∧ (∀ (t : Inner) (r : Nat) (qp : List String) (dv : Visibility)
        (e : PathTreeError) (lastName : String),
        t.find qp = .error e → qp.getLast? = some lastName →
        t.storage.length < 2 ^ 32 → r < t.storage.length →
        ∃ t1, processNonWildcard t r qp dv =
          .ok (t1, { name := lastName, kind := PathKind.Use 0, vis := dv },
               nameItem qp)) := by
  constructor
  · intro t r qp dv comps
    rfl
  · intro t r qp dv e lastName hfind hlast hlen hr
    have hkind : useKind t qp = PathKind.Use 0 := by rw [useKind, hfind]
    obtain ⟨g, t1, hac⟩ := appendChild_succeeds t r lastName (PathKind.Use 0) dv hlen hr
    refine ⟨t1, ?_⟩
    show (match qp.getLast? with
      | none => Except.error (ImportErr.Panicked "called unwrap on None")
      | some lastName2 =>
        match t.appendChild r lastName2 (useKind t qp) dv with
        | Except.error e2 => Except.error (ImportErr.ofModel e2)
        | Except.ok (_, t2) =>
          Except.ok (t2,
            ({ name := lastName2, kind := useKind t qp, vis := dv } : AliasRec),
            nameItem qp)) =
      Except.ok (t1,
        ({ name := lastName, kind := PathKind.Use 0, vis := dv } : AliasRec), nameItem qp)
    rw [hlast]
    show (match t.appendChild r lastName (useKind t qp) dv with
      | Except.error e2 => Except.error (ImportErr.ofModel e2)
      | Except.ok (_, t2) =>
        Except.ok (t2,
          ({ name := lastName, kind := useKind t qp, vis := dv } : AliasRec),
          nameItem qp)) = _
    rw [hkind, hac]

/-- Claim C8 (witness): the amended behavior at concrete inputs — the
wildcard arm errors with `MissingModule` on a wholly absent prefix, the
non-wildcard arm succeeds with the placeholder. -/
theorem import_missing_module_amended_witness :
    processWildcard Inner.emptyTree 0 ["a", "b"] Visibility.Public false false [] =
      .error (.MissingModule [Component.Str "a", Component.Str "b"])
    ∧ (processNonWildcard Inner.emptyTree 0 ["a", "b"] Visibility.Public).toOption.map
        (fun x => x.2.2) = some [Component.Str "a", Component.Str "b"] := by
  constructor
  · exact import_missing_module_amended.1 Inner.emptyTree 0 ["a", "b"] .Public []
  · obtain ⟨t1, h⟩ := import_missing_module_amended.2 Inner.emptyTree 0 ["a", "b"]
      .Public (.UnresolvablePath "path resolution failed for a::b at b") "b"
      rfl rfl (by decide) (by decide)
    rw [h]
    rfl

end Rune
